import Mathlib

/-!
Shallow embedding of `simple_history/management/commands/clean_duplicate_history.py`.

A historical snapshot is a `Record`: its `history_id` (the table's `id` column),
its `history_date`, and the tracked field values.  Querysets are lists of
records, already in the historical model's default ordering
`('-history_date', '-history_id')` (newest first), as the code itself relies on
(see the comment "ordering is ('-history_date', '-history_id') so this is ok"
in `_process_instance`).  Timestamps are modelled as integers (minutes).
-/

namespace CleanDup

structure Record where
  id : Nat
  history_date : Int
  fields : List (String × Int)
deriving Repr, DecidableEq

/-- Modelled from the spec: `diff_against` (defined in this repository's
`simple_history/models.py`, which is not under `src/`) computes the list of
changed fields of two snapshots — "a field-level diff that ignores a
caller-supplied set of excluded fields".  A field name is changed when it is
not excluded and the two snapshots hold different values for it;
`excluded = none` (Python `None`) excludes nothing. -/
def fieldValue (e : Record) (n : String) : Option Int :=
  (e.fields.find? (fun p => p.1 == n)).map Prod.snd

/-- Modelled from the spec: the `changed_fields` of `entry1.diff_against
(entry2, excluded_fields=...)`. -/
def changedFields (excluded : Option (List String)) (e1 e2 : Record) :
    List String :=
  (e1.fields.map Prod.fst).filter
    (fun n => !((excluded.getD []).contains n)
      && !(fieldValue e1 n == fieldValue e2 n))

/-- `_check_and_delete(entry1, entry2, dry_run)`: returns the count it adds to
`entries_deleted` together with the records it deletes (`entry1.delete()` runs
when the diff is empty and this is not a dry run). -/
def check_and_delete (excluded : Option (List String)) (dry_run : Bool)
    (entry1 entry2 : Record) : Nat × List Record :=
  if changedFields excluded entry1 entry2 = [] then
    (1, if dry_run then [] else [entry1])
  else
    (0, [])

/-- `_check_and_batch(entry1, entry2, deletion_list)`: returns the count it
adds and the updated `deletion_list` (`deletion_list.append(entry1.id)` when
the diff is empty). -/
def check_and_batch (excluded : Option (List String))
    (entry1 entry2 : Record) (deletion_list : List Nat) : Nat × List Nat :=
  if changedFields excluded entry1 entry2 = [] then
    (1, deletion_list ++ [entry1.id])
  else
    (0, deletion_list)

/-- The queryset restriction in `_process_instance`: with no `stop_date` the
full history is scanned and there is no extra record; with a `stop_date` the
scan runs over `o_qs.filter(history_date__gte=stop_date)` and the extra record
is `o_qs.filter(history_date__lte=stop_date).first()`. -/
def instanceQs (h : List Record) (stop_date : Option Int) :
    List Record × Option Record :=
  match stop_date with
  | none => (h, none)
  | some s =>
      (h.filter (fun r => decide (s ≤ r.history_date)),
       (h.filter (fun r => decide (r.history_date ≤ s))).head?)

/-- The comparisons `_process_instance` performs, in order: `f1` starts as
`o_qs.first()`, each later record `f2` is compared against the previous one,
and when `extra_one` exists it is compared against the final `f1`. -/
def scanFrom : Record → List Record → Option Record → List (Record × Record)
  | _f1, [], none => []
  | f1, [], some e => [(f1, e)]
  | f1, f2 :: rest, ex => (f1, f2) :: scanFrom f2 rest ex

/-- The compared pairs of a whole queryset: none when `o_qs.first()` is `None`
(the early `return`, which skips the `extra_one` comparison too). -/
def scanPairsOf (qs : List Record) (extra : Option Record) :
    List (Record × Record) :=
  match qs with
  | [] => []
  | f1 :: rest => scanFrom f1 rest extra

/-- The non-batch loop body of `_process_instance`: accumulates
`entries_deleted` and the records actually deleted. -/
def deleteLoop (excluded : Option (List String)) (dry_run : Bool) :
    Record → List Record → Option Record → Nat × List Record
  | _f1, [], none => (0, [])
  | f1, [], some e => check_and_delete excluded dry_run f1 e
  | f1, f2 :: rest, ex =>
      let r := check_and_delete excluded dry_run f1 f2
      let s := deleteLoop excluded dry_run f2 rest ex
      (r.1 + s.1, r.2 ++ s.2)

/-- `_process_instance` with `batch_mode=False`: `(entries_deleted, deleted
records)`. -/
def processInstanceDelete (excluded : Option (List String)) (dry_run : Bool)
    (qs : List Record) (extra : Option Record) : Nat × List Record :=
  match qs with
  | [] => (0, [])
  | f1 :: rest => deleteLoop excluded dry_run f1 rest extra

/-- The batch-mode loop body of `_process_instance`: accumulates
`entries_deleted` and threads `deletion_list` through. -/
def batchLoop (excluded : Option (List String)) :
    Record → List Record → Option Record → List Nat → Nat × List Nat
  | _f1, [], none, dl => (0, dl)
  | f1, [], some e, dl => check_and_batch excluded f1 e dl
  | f1, f2 :: rest, ex, dl =>
      let r := check_and_batch excluded f1 f2 dl
      let s := batchLoop excluded f2 rest ex r.2
      (r.1 + s.1, s.2)

/-- `_process_instance` with `batch_mode=True`: `(entries_deleted, the grown
deletion_list)`. -/
def processInstanceBatch (excluded : Option (List String))
    (qs : List Record) (extra : Option Record) (deletion_list : List Nat) :
    Nat × List Nat :=
  match qs with
  | [] => (0, deletion_list)
  | f1 :: rest => batchLoop excluded f1 rest extra deletion_list

/-- `_process`'s stop date: `if date_back:` is false both for `None` and for
`0`, so only a nonzero minutes value yields `timezone.now() - timedelta
(minutes=date_back)`. -/
def stopDate (now : Int) (date_back : Option Int) : Option Int :=
  match date_back with
  | none => none
  | some m => if m = 0 then none else some (now - m)

/-- `_process`'s batch count: `len(deletion_list) // batch_size`, plus one when
`len(deletion_list) % batch_size > 0`. -/
def batchCount (n b : Nat) : Nat :=
  n / b + (if n % b > 0 then 1 else 0)

/-- The slice `deletion_list[batch_start:batch_end]` of batch `i`:
`batch_start = batch_size * batch_index`,
`batch_end = min(batch_start + batch_size, len(deletion_list))`. -/
def batchSlice (l : List Nat) (b i : Nat) : List Nat :=
  (l.drop (b * i)).take (min (b * i + b) l.length - b * i)

/-- The ids each batch of `_process` issues for deletion, batch by batch. -/
def batchedDeletes (l : List Nat) (b : Nat) : List (List Nat) :=
  (List.range (batchCount l.length b)).map (batchSlice l b)

/-- The batch indices after which `_process` sleeps:
`if batch_index != batch_count - 1 and batch_sleep > 0: time.sleep(...)`. -/
def sleepIndices (batch_count batch_sleep : Nat) : List Nat :=
  (List.range batch_count).filter
    (fun i => decide (i ≠ batch_count - 1) && decide (0 < batch_sleep))

/-- The per-model scan of `_process` in non-batch mode, over the instances'
(pre-ordered) histories: total count and deleted records, instance by
instance. -/
def deleteScan (excluded : Option (List String)) (dry_run : Bool) :
    List (List Record) → Option Int → Nat × List Record
  | [], _ => (0, [])
  | h :: hists, s =>
      let q := instanceQs h s
      let r := processInstanceDelete excluded dry_run q.1 q.2
      let rest := deleteScan excluded dry_run hists s
      (r.1 + rest.1, r.2 ++ rest.2)

/-- The per-model loop of `_process` in batch mode, threading the running
total and the shared `deletion_list` through the instances. -/
def gatherScanAux (excluded : Option (List String)) :
    List (List Record) → Option Int → Nat × List Nat → Nat × List Nat
  | [], _, acc => acc
  | h :: hists, s, acc =>
      let q := instanceQs h s
      let r := processInstanceBatch excluded q.1 q.2 acc.2
      gatherScanAux excluded hists s (acc.1 + r.1, r.2)

/-- The per-model scan of `_process` in batch mode: total count and the final
`deletion_list`, starting from the empty `deletion_list = []`. -/
def gatherScan (excluded : Option (List String))
    (hists : List (List Record)) (s : Option Int) : Nat × List Nat :=
  gatherScanAux excluded hists s (0, [])

/-- The ids `_process` ends up deleting for one model: in batch mode the
batched deletion phase runs only `if batch_mode and not dry_run`; in non-batch
mode the per-pair deletes inside `_process_instance` are the only ones. -/
def deletedIds (excluded : Option (List String)) (dry_run batch_mode : Bool)
    (b : Nat) (hists : List (List Record)) (s : Option Int) : List Nat :=
  if batch_mode then
    if dry_run then []
    else ((batchedDeletes (gatherScan excluded hists s).2 b)).flatten
  else
    (deleteScan excluded dry_run hists s).2.map Record.id

/-- The historical models' default order, newest first: `a` is at-or-below `b`
(older, or the same moment with an id no larger). -/
def recLe (a b : Record) : Prop :=
  a.history_date < b.history_date
    ∨ (a.history_date = b.history_date ∧ a.id ≤ b.id)

instance (a b : Record) : Decidable (recLe a b) := by
  unfold recLe; infer_instance

/-- A list sorted the way the historical queryset is ordered:
`('-history_date', '-history_id')`, newest first. -/
def newestFirst (l : List Record) : Prop :=
  l.Pairwise (fun a b => recLe b a)


/-! ### Structure of the scan -/

/-- A compared pair is "a duplicate" when the diff reports no changed
fields. -/
def isDupP (excluded : Option (List String)) (p : Record × Record) : Bool :=
  decide (changedFields excluded p.1 p.2 = [])

theorem scanFrom_none (f1 : Record) (rest : List Record) :
    scanFrom f1 rest none = (f1 :: rest).zip rest := by
  induction rest generalizing f1 with
  | nil => rfl
  | cons f2 rest ih => simp [scanFrom, ih f2, List.zip]

theorem scanFrom_some (f1 : Record) (rest : List Record) (e : Record) :
    scanFrom f1 rest (some e)
      = (f1 :: rest).zip rest
        ++ [((f1 :: rest).getLast (List.cons_ne_nil f1 rest), e)] := by
  induction rest generalizing f1 with
  | nil => rfl
  | cons f2 rest ih =>
      simp only [scanFrom, ih f2, List.zip]
      rw [List.getLast_cons (List.cons_ne_nil f2 rest)]
      rfl

theorem scanFrom_length (f1 : Record) (rest : List Record)
    (ex : Option Record) :
    (scanFrom f1 rest ex).length
      = rest.length + (if ex.isSome then 1 else 0) := by
  cases ex with
  | none => simp [scanFrom_none]
  | some e => simp [scanFrom_some]

/-! ### The loops, restated over the compared pairs -/

theorem deleteLoop_count (excluded : Option (List String)) (dry_run : Bool)
    (f1 : Record) (rest : List Record) (ex : Option Record) :
    (deleteLoop excluded dry_run f1 rest ex).1
      = (scanFrom f1 rest ex).countP (isDupP excluded) := by
  induction rest generalizing f1 with
  | nil =>
      cases ex with
      | none => rfl
      | some e =>
          simp only [deleteLoop, scanFrom, check_and_delete, isDupP,
            List.countP_cons, List.countP_nil]
          split <;> simp_all
  | cons f2 rest ih =>
      simp only [deleteLoop, scanFrom, List.countP_cons, ih f2,
        check_and_delete, isDupP]
      split <;> simp_all [Nat.add_comm]

theorem deleteLoop_dry (excluded : Option (List String))
    (f1 : Record) (rest : List Record) (ex : Option Record) :
    (deleteLoop excluded true f1 rest ex).2 = [] := by
  induction rest generalizing f1 with
  | nil =>
      cases ex with
      | none => rfl
      | some e => simp only [deleteLoop, check_and_delete]; split <;> rfl
  | cons f2 rest ih =>
      simp only [deleteLoop, check_and_delete, ih f2]
      split <;> rfl

theorem deleteLoop_dels (excluded : Option (List String))
    (f1 : Record) (rest : List Record) (ex : Option Record) :
    (deleteLoop excluded false f1 rest ex).2
      = ((scanFrom f1 rest ex).filter (isDupP excluded)).map Prod.fst := by
  induction rest generalizing f1 with
  | nil =>
      cases ex with
      | none => rfl
      | some e =>
          simp only [deleteLoop, scanFrom, check_and_delete, isDupP,
            List.filter]
          split <;> simp_all
  | cons f2 rest ih =>
      simp only [deleteLoop, scanFrom, check_and_delete, isDupP, ih f2,
        List.filter]
      split <;> simp_all [isDupP]

theorem batchLoop_spec (excluded : Option (List String))
    (f1 : Record) (rest : List Record) (ex : Option Record)
    (dl : List Nat) :
    batchLoop excluded f1 rest ex dl
      = ((deleteLoop excluded false f1 rest ex).1,
         dl ++ (deleteLoop excluded false f1 rest ex).2.map Record.id) := by
  induction rest generalizing f1 dl with
  | nil =>
      cases ex with
      | none => simp [batchLoop, deleteLoop]
      | some e =>
          simp only [batchLoop, deleteLoop, check_and_batch,
            check_and_delete]
          split <;> simp
  | cons f2 rest ih =>
      simp only [batchLoop, deleteLoop, check_and_batch, check_and_delete]
      split <;> simp [ih f2]

theorem processInstanceDelete_count (excluded : Option (List String))
    (dry_run : Bool) (qs : List Record) (ex : Option Record) :
    (processInstanceDelete excluded dry_run qs ex).1
      = (scanPairsOf qs ex).countP (isDupP excluded) := by
  cases qs with
  | nil => rfl
  | cons f1 rest =>
      exact deleteLoop_count excluded dry_run f1 rest ex

theorem processInstanceDelete_dry (excluded : Option (List String))
    (qs : List Record) (ex : Option Record) :
    (processInstanceDelete excluded true qs ex).2 = [] := by
  cases qs with
  | nil => rfl
  | cons f1 rest => exact deleteLoop_dry excluded f1 rest ex

theorem processInstanceDelete_dels (excluded : Option (List String))
    (qs : List Record) (ex : Option Record) :
    (processInstanceDelete excluded false qs ex).2
      = ((scanPairsOf qs ex).filter (isDupP excluded)).map Prod.fst := by
  cases qs with
  | nil => rfl
  | cons f1 rest => exact deleteLoop_dels excluded f1 rest ex

theorem processInstanceBatch_spec (excluded : Option (List String))
    (qs : List Record) (ex : Option Record) (dl : List Nat) :
    processInstanceBatch excluded qs ex dl
      = ((processInstanceDelete excluded false qs ex).1,
         dl ++ (processInstanceDelete excluded false qs ex).2.map Record.id)
      := by
  cases qs with
  | nil => simp [processInstanceBatch, processInstanceDelete]
  | cons f1 rest => exact batchLoop_spec excluded f1 rest ex dl

/-! ### The per-model folds -/

theorem gatherScanAux_spec (excluded : Option (List String))
    (hists : List (List Record)) (s : Option Int) :
    ∀ acc : Nat × List Nat,
      gatherScanAux excluded hists s acc
        = (acc.1 + (deleteScan excluded false hists s).1,
           acc.2 ++ (deleteScan excluded false hists s).2.map Record.id) := by
  induction hists with
  | nil => intro acc; simp [gatherScanAux, deleteScan]
  | cons h hists ih =>
      intro acc
      simp only [gatherScanAux, deleteScan, ih, processInstanceBatch_spec]
      simp [Nat.add_assoc]

theorem gatherScan_spec (excluded : Option (List String))
    (hists : List (List Record)) (s : Option Int) :
    gatherScan excluded hists s
      = ((deleteScan excluded false hists s).1,
         (deleteScan excluded false hists s).2.map Record.id) := by
  rw [gatherScan, gatherScanAux_spec]
  simp

theorem deleteScan_dry (excluded : Option (List String))
    (hists : List (List Record)) (s : Option Int) :
    deleteScan excluded true hists s
      = ((deleteScan excluded false hists s).1, []) := by
  induction hists with
  | nil => rfl
  | cons h hists ih =>
      simp only [deleteScan, ih]
      simp [processInstanceDelete_dry, processInstanceDelete_count]

/-! ### Sorted scans compare newer against older -/

theorem scanFrom_pairs_sorted (f1 : Record) (rest : List Record)
    (ex : Option Record)
    (hs : List.Chain' (fun a b => recLe b a) (f1 :: (rest ++ ex.toList))) :
    ∀ p ∈ scanFrom f1 rest ex, recLe p.2 p.1 := by
  induction rest generalizing f1 with
  | nil =>
      cases ex with
      | none => intro p hp; simp [scanFrom] at hp
      | some e =>
          intro p hp
          simp only [scanFrom, List.mem_singleton] at hp
          subst hp
          simp only [Option.toList_some, List.nil_append,
            List.chain'_cons] at hs
          exact hs.1
  | cons f2 rest ih =>
      intro p hp
      simp only [List.cons_append, List.chain'_cons] at hs
      simp only [scanFrom, List.mem_cons] at hp
      rcases hp with rfl | hp
      · exact hs.1
      · exact ih f2 (by simpa using hs.2) p hp

/-! ### Concrete snapshots used as explicit inputs -/

/-- A newer snapshot (id 2, minute 10) with the same tracked fields as
`rOld`. -/
def rNew : Record := ⟨2, 10, [("x", 1)]⟩

/-- An older snapshot (id 1, minute 5) with the same tracked fields as
`rNew`. -/
def rOld : Record := ⟨1, 5, [("x", 1)]⟩

/-! ### The claims -/

/-- C1, as stated, is false: on two identical snapshots the record the scan
deletes is `rNew`, the newer of the pair (`rOld.history_date <
rNew.history_date`), not the older one. -/
theorem c1_counterexample :
    processInstanceDelete none false [rNew, rOld] none = (1, [rNew])
    ∧ processInstanceDelete none false [rNew, rOld] none ≠ (1, [rOld])
    ∧ rOld.history_date < rNew.history_date
    ∧ rNew ≠ rOld := by decide

/-- C1 (amended): when the diff of an adjacent pair reports no changed
fields, the snapshot deleted is `entry1` — the newer of the pair — and the
older one is kept: the deleted records are exactly the first components of
the duplicate pairs, and in every compared pair the second component is
at-or-older than the first (newest-first order). -/
theorem c1_newer_deleted (excluded : Option (List String))
    (qs : List Record) (ex : Option Record)
    (hs : newestFirst (qs ++ ex.toList)) :
    (processInstanceDelete excluded false qs ex).2
      = ((scanPairsOf qs ex).filter (isDupP excluded)).map Prod.fst
    ∧ ∀ p ∈ scanPairsOf qs ex, recLe p.2 p.1 := by
  refine ⟨processInstanceDelete_dels excluded qs ex, ?_⟩
  cases qs with
  | nil => intro p hp; simp [scanPairsOf] at hp
  | cons f1 rest =>
      exact scanFrom_pairs_sorted f1 rest ex
        (by simpa using hs.chain')

/-- C1 witness: the amended claim evaluated on the two concrete snapshots. -/
theorem c1_newer_deleted_witness :
    (processInstanceDelete none false [rNew, rOld] none).2
      = ((scanPairsOf [rNew, rOld] none).filter (isDupP none)).map Prod.fst
    ∧ ∀ p ∈ scanPairsOf [rNew, rOld] none, recLe p.2 p.1 :=
  c1_newer_deleted none [rNew, rOld] none
    (by norm_num [newestFirst, List.pairwise_cons, recLe, rNew, rOld])

/-- C2: a pair produces a deletion (a nonzero count, and in batch mode a
gathered id) exactly when its diff, with the excluded fields ignored, reports
no changed fields; a pair with a changed field deletes nothing and
contributes 0. -/
theorem c2_pair_iff (excluded : Option (List String)) (dry_run : Bool)
    (e1 e2 : Record) (dl : List Nat) :
    ((check_and_delete excluded dry_run e1 e2).1 = 1
      ↔ changedFields excluded e1 e2 = [])
    ∧ ((check_and_batch excluded e1 e2 dl).2 ≠ dl
      ↔ changedFields excluded e1 e2 = [])
    ∧ (changedFields excluded e1 e2 ≠ [] →
        check_and_delete excluded dry_run e1 e2 = (0, [])
        ∧ check_and_batch excluded e1 e2 dl = (0, dl))
    ∧ (changedFields excluded e1 e2 = [] →
        (check_and_delete excluded dry_run e1 e2).1 = 1
        ∧ (check_and_batch excluded e1 e2 dl).2 = dl ++ [e1.id]
        ∧ (dry_run = false →
            (check_and_delete excluded dry_run e1 e2).2 = [e1])) := by
  unfold check_and_delete check_and_batch
  split <;> rename_i h <;> simp_all

/-- C4: batch mode and non-batch mode identify the same duplicates — the
count agrees with the non-batch count, and the ids appended to the deletion
list are exactly the ids of the records the non-batch scan deletes. -/
theorem c4_batch_agrees (excluded : Option (List String))
    (qs : List Record) (ex : Option Record) (dl : List Nat) :
    (processInstanceBatch excluded qs ex dl).1
      = (processInstanceDelete excluded false qs ex).1
    ∧ (processInstanceBatch excluded qs ex dl).2
      = dl ++ (processInstanceDelete excluded false qs ex).2.map Record.id
    ∧ gatherScan excluded [qs.map id] none
      = ((deleteScan excluded false [qs.map id] none).1,
         (deleteScan excluded false [qs.map id] none).2.map Record.id) := by
  rw [processInstanceBatch_spec]
  exact ⟨rfl, rfl, gatherScan_spec excluded [qs.map id] none⟩

/-- C8: a scanned queryset of `n ≥ 1` records yields exactly `n - 1`
adjacent-pair comparisons — each consecutive pair once, in order — plus one
extra boundary comparison exactly when the extra snapshot exists. -/
theorem c8_pair_count (f1 : Record) (rest : List Record) (ex : Option Record) :
    (scanPairsOf (f1 :: rest) ex).length
      = (f1 :: rest).length - 1 + (if ex.isSome then 1 else 0)
    ∧ scanPairsOf (f1 :: rest) none = (f1 :: rest).zip rest
    ∧ (∀ e, ex = some e →
        scanPairsOf (f1 :: rest) ex
          = (f1 :: rest).zip rest
            ++ [((f1 :: rest).getLast (List.cons_ne_nil f1 rest), e)]) := by
  refine ⟨?_, scanFrom_none f1 rest, ?_⟩
  · simp [scanPairsOf, scanFrom_length]
  · rintro e rfl
    exact scanFrom_some f1 rest e

/-! ### Batching arithmetic -/

theorem batchSlice_take (l : List Nat) (b i : Nat) :
    batchSlice l b i = (l.drop (b * i)).take b := by
  unfold batchSlice
  rcases le_or_lt l.length (b * i) with h | h
  · rw [List.drop_eq_nil_of_le h]
    simp
  · rw [List.take_eq_take]
    rw [List.length_drop]
    omega

theorem batchCount_succ (n b : Nat) (hb : 0 < b) (hn : b ≤ n) :
    batchCount n b = batchCount (n - b) b + 1 := by
  obtain ⟨m, rfl⟩ : ∃ m, n = m + b := ⟨n - b, by omega⟩
  unfold batchCount
  rw [Nat.add_div_right _ hb, Nat.add_mod_right, Nat.add_sub_cancel]
  split <;> omega

theorem batchCount_of_le (n b : Nat) (hn : 0 < n) (hnb : n ≤ b) :
    batchCount n b = 1 := by
  unfold batchCount
  rcases Nat.lt_or_ge n b with h | h
  · rw [Nat.div_eq_of_lt h, Nat.mod_eq_of_lt h]
    simp [hn]
  · have e : n = b := by omega
    subst e
    simp [Nat.div_self (by omega : 0 < n), Nat.mod_self]

theorem batchCount_eq_ceil (n b : Nat) (hb : 0 < b) :
    batchCount n b = (n + b - 1) / b := by
  rcases Nat.eq_zero_or_pos (n % b) with h | h
  · obtain ⟨q, rfl⟩ := Nat.dvd_of_mod_eq_zero h
    unfold batchCount
    rw [h]
    have e : b * q + b - 1 = b * q + (b - 1) := by omega
    have h4 : (b - 1) / b = 0 := Nat.div_eq_of_lt (by omega)
    rw [e, Nat.mul_add_div hb, Nat.mul_div_cancel_left q hb, h4]
    simp
  · unfold batchCount
    rw [if_pos h]
    have hd := Nat.div_add_mod n b
    have hrb : n % b < b := Nat.mod_lt _ hb
    have e : n + b - 1 = b * (n / b) + (n % b + b - 1) := by omega
    rw [e, Nat.mul_add_div hb]
    have e2 : n % b + b - 1 = (n % b - 1) + b := by omega
    have h3 : (n % b - 1) / b = 0 := Nat.div_eq_of_lt (by omega)
    rw [e2, Nat.add_div_right _ hb, h3]

theorem batchedDeletes_flatten_aux (b : Nat) (hb : 0 < b) :
    ∀ n, ∀ l : List Nat, l.length ≤ n → (batchedDeletes l b).flatten = l := by
  intro n
  induction n with
  | zero =>
      intro l hl
      have : l = [] := List.length_eq_zero.mp (by omega)
      subst this
      simp [batchedDeletes, batchCount]
  | succ n ih =>
      intro l hl
      rcases Nat.eq_zero_or_pos l.length with h0 | h0
      · have : l = [] := List.length_eq_zero.mp h0
        subst this
        simp [batchedDeletes, batchCount]
      rcases le_or_lt l.length b with hsmall | hbig
      · unfold batchedDeletes
        rw [batchCount_of_le _ _ h0 hsmall]
        have hr1 : List.range 1 = [0] := rfl
        rw [hr1]
        simp only [List.map_cons, List.map_nil, List.flatten_cons,
          List.flatten_nil, List.append_nil]
        rw [batchSlice_take]
        simp [List.take_of_length_le hsmall]
      · unfold batchedDeletes
        rw [batchCount_succ _ _ hb (by omega), List.range_succ_eq_map]
        simp only [List.map_cons, List.map_map, List.flatten_cons]
        have head_eq : batchSlice l b 0 = l.take b := by
          rw [batchSlice_take]
          simp
        have tail_eq :
            (List.range (batchCount (l.length - b) b)).map
                (batchSlice l b ∘ Nat.succ)
              = batchedDeletes (l.drop b) b := by
          unfold batchedDeletes
          rw [List.length_drop]
          refine List.map_congr_left ?_
          intro i hi
          simp only [Function.comp_apply]
          rw [batchSlice_take, batchSlice_take, List.drop_drop]
          have : b * Nat.succ i = b + b * i := by rw [Nat.mul_succ]; omega
          rw [this]
        rw [head_eq, tail_eq, ih (l.drop b) (by rw [List.length_drop]; omega)]
        exact List.take_append_drop b l

theorem batchedDeletes_flatten (l : List Nat) (b : Nat) (hb : 0 < b) :
    (batchedDeletes l b).flatten = l :=
  batchedDeletes_flatten_aux b hb l.length l le_rfl

theorem batchSlice_full (l : List Nat) (b i : Nat) (hb : 0 < b)
    (hi : i + 1 < batchCount l.length b) :
    (batchSlice l b i).length = b := by
  have hd := Nat.div_add_mod l.length b
  have hrb : l.length % b < b := Nat.mod_lt _ hb
  have hq : i + 1 ≤ l.length / b := by
    unfold batchCount at hi
    split at hi <;> omega
  have hmul : b * (i + 1) ≤ b * (l.length / b) := Nat.mul_le_mul_left b hq
  have hms : b * (i + 1) = b * i + b := by ring
  rw [batchSlice_take, List.length_take, List.length_drop]
  omega

/-- C5: with batch size `b > 0` and a nonempty deletion list, the number of
batches is the ceiling of `n / b`; batch `i` deletes exactly the slice from
`i*b` to `min((i+1)*b, n)`; the slices concatenate back to the whole list (so
they are pairwise disjoint segments covering it, each id issued exactly
once); and every batch but possibly the last holds exactly `b` ids. -/
theorem c5_batching (l : List Nat) (b : Nat) (hb : 0 < b) (_hl : l ≠ []) :
    batchCount l.length b = (l.length + b - 1) / b
    ∧ (batchedDeletes l b).flatten = l
    ∧ (∀ i, batchSlice l b i = (l.drop (b * i)).take b)
    ∧ (∀ i, i + 1 < batchCount l.length b → (batchSlice l b i).length = b) :=
  ⟨batchCount_eq_ceil l.length b hb,
   batchedDeletes_flatten l b hb,
   fun i => batchSlice_take l b i,
   fun i hi => batchSlice_full l b i hb hi⟩

/-- C5 witness: seven gathered ids in batches of three: three batches, the
first two full, flattening back to the list. -/
theorem c5_batching_witness :
    batchCount ([10, 11, 12, 13, 14, 15, 16] : List Nat).length 3
        = (([10, 11, 12, 13, 14, 15, 16] : List Nat).length + 3 - 1) / 3
    ∧ (batchedDeletes [10, 11, 12, 13, 14, 15, 16] 3).flatten
        = [10, 11, 12, 13, 14, 15, 16]
    ∧ (∀ i, batchSlice [10, 11, 12, 13, 14, 15, 16] 3 i
        = (([10, 11, 12, 13, 14, 15, 16] : List Nat).drop (3 * i)).take 3)
    ∧ (∀ i, i + 1 < batchCount ([10, 11, 12, 13, 14, 15, 16] : List Nat).length 3 →
        (batchSlice [10, 11, 12, 13, 14, 15, 16] 3 i).length = 3) :=
  c5_batching [10, 11, 12, 13, 14, 15, 16] 3 (by decide) (by decide)

/-- C7: with `batch_sleep > 0` and `k` batches the command sleeps after every
batch except the last — `k - 1` times, never after the final batch — and with
`batch_sleep = 0` it never sleeps. -/
theorem c7_sleeps (k sl : Nat) :
    (sleepIndices k sl).length = (if 0 < sl then k - 1 else 0)
    ∧ (k - 1) ∉ sleepIndices k sl
    ∧ (sl = 0 → sleepIndices k sl = []) := by
  refine ⟨?_, ?_, ?_⟩
  · rcases Nat.eq_zero_or_pos sl with h0 | h0
    · subst h0
      simp [sleepIndices]
    · rw [if_pos h0]
      cases k with
      | zero => simp [sleepIndices]
      | succ m =>
          unfold sleepIndices
          rw [List.range_succ, List.filter_append]
          have h1 : (List.range m).filter
              (fun i => decide (i ≠ m + 1 - 1) && decide (0 < sl))
                = List.range m := by
            rw [List.filter_eq_self]
            intro a ha
            have ham : a < m := List.mem_range.mp ha
            simp only [Bool.and_eq_true, decide_eq_true_eq]
            exact ⟨by omega, h0⟩
          have h2 : ([m] : List Nat).filter
              (fun i => decide (i ≠ m + 1 - 1) && decide (0 < sl)) = [] := by
            simp
          rw [h1, h2]
          simp
  · intro hmem
    rw [sleepIndices, List.mem_filter] at hmem
    simp at hmem
  · intro h0
    subst h0
    simp [sleepIndices]

/-- C6: under a dry run nothing is deleted in either mode — non-batch per-pair
deletes are skipped and the batched deletion phase is skipped — while the
detected duplicates and counts equal those of a non-dry run on the same
data. -/
theorem c6_dry_run (excluded : Option (List String)) (batch_mode : Bool)
    (b : Nat) (hists : List (List Record)) (s : Option Int) :
    deletedIds excluded true batch_mode b hists s = []
    ∧ deleteScan excluded true hists s
        = ((deleteScan excluded false hists s).1, [])
    ∧ (gatherScan excluded hists s).1
        = (deleteScan excluded false hists s).1 := by
  refine ⟨?_, deleteScan_dry excluded hists s, by rw [gatherScan_spec]⟩
  unfold deletedIds
  cases batch_mode with
  | true => simp
  | false => simp [deleteScan_dry]

/-- C9: a minutes value of `0` behaves exactly like a missing minutes value:
no cutoff is computed, and the scan sees the full history with no extra
boundary snapshot. -/
theorem c9_zero_minutes (now : Int) (h : List Record) :
    stopDate now (some 0) = none
    ∧ stopDate now (some 0) = stopDate now none
    ∧ instanceQs h (stopDate now (some 0)) = (h, none) := by
  refine ⟨by simp [stopDate], by simp [stopDate], by simp [stopDate, instanceQs]⟩

/-! ### The time window and its boundary -/

theorem scanPairsOf_some_eq (qs : List Record) (hq : qs ≠ []) (e : Record) :
    scanPairsOf qs (some e) = qs.zip qs.tail ++ [(qs.getLast hq, e)] := by
  cases qs with
  | nil => exact absurd rfl hq
  | cons f1 rest => exact scanFrom_some f1 rest e

theorem zip_tail_ne (l : List Record) (hnd : l.Nodup) :
    ∀ p ∈ l.zip l.tail, p.1 ≠ p.2 := by
  induction l with
  | nil => intro p hp; simp at hp
  | cons a t ih =>
      cases t with
      | nil => intro p hp; simp [List.zip] at hp
      | cons b t2 =>
          intro p hp
          rw [show (a :: b :: t2).zip (a :: b :: t2).tail
                = (a, b) :: ((b :: t2).zip (b :: t2).tail) from rfl] at hp
          rcases List.mem_cons.mp hp with rfl | hp2
          · show a ≠ b
            intro hab
            exact (List.nodup_cons.mp hnd).1
              (hab ▸ List.mem_cons_self b t2)
          · exact ih (List.nodup_cons.mp hnd).2 p hp2

theorem head_filter_max (h : List Record) (p : Record → Bool) (e : Record)
    (hsort : newestFirst h) (he : (h.filter p).head? = some e) :
    e ∈ h ∧ p e = true ∧ ∀ a ∈ h, p a = true → recLe a e := by
  have hememo : e ∈ (h.filter p).head? := by rw [he]; rfl
  have hef : e ∈ h.filter p := List.mem_of_mem_head? hememo
  have he1 := List.mem_filter.mp hef
  refine ⟨he1.1, he1.2, ?_⟩
  intro a ha hpa
  have haf : a ∈ h.filter p := List.mem_filter.mpr ⟨ha, hpa⟩
  have hps0 : h.Pairwise (fun x y => recLe y x) := hsort
  have hps : (h.filter p).Pairwise (fun x y => recLe y x) :=
    List.Pairwise.sublist (List.filter_sublist h) hps0
  cases hf : h.filter p with
  | nil => rw [hf] at he; simp at he
  | cons x tl =>
      rw [hf] at he haf hps
      have hex : x = e := by simpa using he
      subst hex
      rcases List.mem_cons.mp haf with rfl | hat
      · exact Or.inr ⟨rfl, le_rfl⟩
      · exact (List.pairwise_cons.mp hps).1 a hat

theorem boundary_ne (h : List Record) (s : Int)
    (hne : ∀ r ∈ h, r.history_date ≠ s)
    (g e : Record) (hgmem : g ∈ (instanceQs h (some s)).1)
    (hex : (instanceQs h (some s)).2 = some e) : g ≠ e := by
  have h1 := List.mem_filter.mp hgmem
  have hdate : s ≤ g.history_date := by simpa using h1.2
  have hneq : g.history_date ≠ s := hne g h1.1
  have hememo :
      e ∈ (List.filter (fun r => decide (r.history_date ≤ s)) h).head? := by
    rw [show (List.filter (fun r => decide (r.history_date ≤ s)) h).head?
          = (instanceQs h (some s)).2 from rfl, hex]
    rfl
  have he2 := List.mem_filter.mp (List.mem_of_mem_head? hememo)
  have hedate : e.history_date ≤ s := by simpa using he2.2
  intro hcontra
  rw [hcontra] at hdate hneq
  omega

/-- A snapshot exactly at the cutoff, alone in its history, with unique field
values. -/
def rEdge : Record := ⟨1, 0, [("x", 7)]⟩

/-- A snapshot strictly before the cutoff `0`, identical in tracked fields to
`rNew`. -/
def rBefore : Record := ⟨1, -3, [("x", 1)]⟩

/-- C3 as stated is false at the window edge: for a history holding a single
snapshot whose `history_date` equals the cutoff exactly, the windowed scan
selects it both as the only in-window snapshot and as the extra boundary
snapshot, compares it against itself, and deletes it — even though scanning
the same history without a window finds no duplicate at all.  The window edge
snapshot is falsely treated as a duplicate. -/
theorem c3_counterexample :
    (instanceQs [rEdge] (some 0)).1 = [rEdge]
    ∧ (instanceQs [rEdge] (some 0)).2 = some rEdge
    ∧ processInstanceDelete none false (instanceQs [rEdge] (some 0)).1
        (instanceQs [rEdge] (some 0)).2 = (1, [rEdge])
    ∧ processInstanceDelete none false [rEdge] none = (0, []) := by decide

/-- C3 (amended): with a cutoff `s`, the scan covers exactly the snapshots
with `history_date ≥ s`; the extra snapshot is a member of the history, has
`history_date ≤ s`, and is the newest such snapshot; it is compared as the
final pair against the oldest in-window snapshot; and — provided no snapshot
sits exactly at the cutoff — no snapshot is compared against itself, so the
window edge is not falsely self-matched.  (When a snapshot's `history_date`
equals the cutoff exactly, it is both the oldest in-window snapshot and the
extra snapshot and is compared against itself: see the counterexample.) -/
theorem c3_window_amended (h : List Record) (s : Int)
    (hnd : h.Nodup) (hsort : newestFirst h)
    (hne : ∀ r ∈ h, r.history_date ≠ s) :
    (∀ r, r ∈ (instanceQs h (some s)).1 ↔ r ∈ h ∧ s ≤ r.history_date)
    ∧ (∀ e, (instanceQs h (some s)).2 = some e →
        e ∈ h ∧ e.history_date ≤ s
        ∧ ∀ a ∈ h, a.history_date ≤ s → recLe a e)
    ∧ (∀ e f1 rest, (instanceQs h (some s)).2 = some e →
        (instanceQs h (some s)).1 = f1 :: rest →
        (scanPairsOf (f1 :: rest) (some e)).getLast?
          = some ((f1 :: rest).getLast (List.cons_ne_nil f1 rest), e))
    ∧ (∀ p ∈ scanPairsOf (instanceQs h (some s)).1 (instanceQs h (some s)).2,
        p.1 ≠ p.2) := by
  refine ⟨?_, ?_, ?_, ?_⟩
  · intro r
    simp [instanceQs, List.mem_filter]
  · intro e he
    have hm := head_filter_max h (fun r => decide (r.history_date ≤ s)) e
      hsort he
    exact ⟨hm.1, by simpa using hm.2.1,
      fun a ha hle => hm.2.2 a ha (by simpa using hle)⟩
  · intro e f1 rest he hq
    rw [scanPairsOf_some_eq (f1 :: rest) (List.cons_ne_nil f1 rest) e,
      List.getLast?_concat]
  · intro p hp
    have hndq : ((instanceQs h (some s)).1).Nodup :=
      List.Nodup.sublist (List.filter_sublist h) hnd
    cases hex : (instanceQs h (some s)).2 with
    | none =>
        rw [hex] at hp
        have hzip : scanPairsOf (instanceQs h (some s)).1 none
            = ((instanceQs h (some s)).1).zip
                ((instanceQs h (some s)).1).tail := by
          cases (instanceQs h (some s)).1 with
          | nil => rfl
          | cons f1 rest => exact scanFrom_none f1 rest
        rw [hzip] at hp
        exact zip_tail_ne _ hndq p hp
    | some e =>
        rw [hex] at hp
        cases hq : (instanceQs h (some s)).1 with
        | nil => rw [hq] at hp; simp [scanPairsOf] at hp
        | cons f1 rest =>
            rw [hq] at hp
            rw [scanPairsOf_some_eq (f1 :: rest)
              (List.cons_ne_nil f1 rest) e] at hp
            rw [hq] at hndq
            rcases List.mem_append.mp hp with hp1 | hp2
            · exact zip_tail_ne _ hndq p hp1
            · have hpe := List.mem_singleton.mp hp2
              rw [hpe]
              have hlast_mem : (f1 :: rest).getLast
                  (List.cons_ne_nil f1 rest) ∈ f1 :: rest :=
                List.getLast_mem _
              exact boundary_ne h s hne _ e
                (by rw [hq]; exact hlast_mem) hex

/-- C3 witness: the amended claim at a two-snapshot history around the cutoff
`0` (one snapshot at minute 10, one at minute -3). -/
theorem c3_window_amended_witness :
    (∀ r, r ∈ (instanceQs [rNew, rBefore] (some 0)).1
        ↔ r ∈ [rNew, rBefore] ∧ (0 : Int) ≤ r.history_date)
    ∧ (∀ e, (instanceQs [rNew, rBefore] (some 0)).2 = some e →
        e ∈ [rNew, rBefore] ∧ e.history_date ≤ 0
        ∧ ∀ a ∈ [rNew, rBefore], a.history_date ≤ 0 → recLe a e)
    ∧ (∀ e f1 rest, (instanceQs [rNew, rBefore] (some 0)).2 = some e →
        (instanceQs [rNew, rBefore] (some 0)).1 = f1 :: rest →
        (scanPairsOf (f1 :: rest) (some e)).getLast?
          = some ((f1 :: rest).getLast (List.cons_ne_nil f1 rest), e))
    ∧ (∀ p ∈ scanPairsOf (instanceQs [rNew, rBefore] (some 0)).1
        (instanceQs [rNew, rBefore] (some 0)).2, p.1 ≠ p.2) :=
  c3_window_amended [rNew, rBefore] 0 (by decide)
    (by norm_num [newestFirst, List.pairwise_cons, recLe, rNew, rBefore])
    (by decide)

/-- C10: when exactly one snapshot sits exactly at the cutoff (everything
else strictly inside or strictly outside the window), it is selected both as
the oldest in-window snapshot and as the extra boundary snapshot, the final
comparison compares it against itself, the diff reports no changed fields,
and the snapshot is deleted (or counted, under a dry run). -/
theorem c10_cutoff_self (excluded : Option (List String))
    (h1 h2 : List Record) (r : Record) (s : Int)
    (hr : r.history_date = s)
    (h1gt : ∀ a ∈ h1, s < a.history_date)
    (h2lt : ∀ a ∈ h2, a.history_date < s) :
    (instanceQs (h1 ++ r :: h2) (some s)).1 = h1 ++ [r]
    ∧ (instanceQs (h1 ++ r :: h2) (some s)).2 = some r
    ∧ (scanPairsOf (h1 ++ [r]) (some r)).getLast? = some (r, r)
    ∧ changedFields excluded r r = []
    ∧ r ∈ (processInstanceDelete excluded false (h1 ++ [r]) (some r)).2
    ∧ 1 ≤ (processInstanceDelete excluded false (h1 ++ [r]) (some r)).1
    ∧ 1 ≤ (processInstanceDelete excluded true (h1 ++ [r]) (some r)).1 := by
  have hne' : h1 ++ [r] ≠ [] := by simp
  have hlast : (h1 ++ [r]).getLast hne' = r := by
    have h5 := List.getLast?_eq_getLast (h1 ++ [r]) hne'
    rw [List.getLast?_concat] at h5
    exact (Option.some.inj h5).symm
  have hscan : scanPairsOf (h1 ++ [r]) (some r)
      = (h1 ++ [r]).zip (h1 ++ [r]).tail ++ [(r, r)] := by
    rw [scanPairsOf_some_eq (h1 ++ [r]) hne' r, hlast]
  have hself : changedFields excluded r r = [] := by
    rw [changedFields, List.filter_eq_nil_iff]
    intro a _
    simp
  have hdup : isDupP excluded (r, r) = true := by
    simp [isDupP, hself]
  have hmem : (r, r) ∈ scanPairsOf (h1 ++ [r]) (some r) := by
    rw [hscan]
    exact List.mem_append_right _ (List.mem_singleton.mpr rfl)
  refine ⟨?_, ?_, ?_, hself, ?_, ?_, ?_⟩
  · show (h1 ++ r :: h2).filter (fun a => decide (s ≤ a.history_date))
        = h1 ++ [r]
    rw [List.filter_append]
    congr 1
    · rw [List.filter_eq_self]
      intro a ha
      simpa using le_of_lt (h1gt a ha)
    · rw [List.filter_cons_of_pos (by simp [hr]),
        List.filter_eq_nil_iff.mpr ?_]
      intro a ha
      simpa using not_le.mpr (h2lt a ha)
  · show ((h1 ++ r :: h2).filter
        (fun a => decide (a.history_date ≤ s))).head? = some r
    rw [List.filter_append,
      List.filter_eq_nil_iff.mpr
        (fun a ha => by simpa using not_le.mpr (h1gt a ha)),
      List.nil_append, List.filter_cons_of_pos (by simp [hr])]
    rfl
  · rw [hscan, List.getLast?_concat]
  · rw [processInstanceDelete_dels]
    exact List.mem_map.mpr ⟨(r, r), List.mem_filter.mpr ⟨hmem, hdup⟩, rfl⟩
  · rw [processInstanceDelete_count]
    exact List.countP_pos_iff.mpr ⟨(r, r), hmem, hdup⟩
  · rw [processInstanceDelete_count]
    exact List.countP_pos_iff.mpr ⟨(r, r), hmem, hdup⟩

/-- C10 witness: a one-snapshot history sitting exactly at the cutoff `0`. -/
theorem c10_cutoff_self_witness :
    (instanceQs ([] ++ rEdge :: []) (some 0)).1 = [] ++ [rEdge]
    ∧ (instanceQs ([] ++ rEdge :: []) (some 0)).2 = some rEdge
    ∧ (scanPairsOf ([] ++ [rEdge]) (some rEdge)).getLast?
        = some (rEdge, rEdge)
    ∧ changedFields none rEdge rEdge = []
    ∧ rEdge ∈ (processInstanceDelete none false ([] ++ [rEdge])
        (some rEdge)).2
    ∧ 1 ≤ (processInstanceDelete none false ([] ++ [rEdge]) (some rEdge)).1
    ∧ 1 ≤ (processInstanceDelete none true ([] ++ [rEdge]) (some rEdge)).1 :=
  c10_cutoff_self none [] [] rEdge 0 (by decide) (by simp) (by simp)

end CleanDup
